import Mathlib

/-!
Shallow embedding of the EdgeSchemaLexer from
src/edgedb/lang/schema/parser/grammar/lexer.py, and of the container
predicates from src/edb/lang/common/typeutils.py.

The base class edgedb.lang.common.lexer (rule dispatch over a combined
regex, token construction with positions) and the keyword table
edge_schema_keywords are not part of the repository sources available
here; those parts are modelled from the spec (first-match-wins ordered
dispatch, 1-based positions advanced over consumed text, keyword table
supplied as configuration).  Everything else is translated from the
source file.

Regular expressions are translated rule by rule into explicit matcher
functions over the character list of the input.  A matcher takes the
whole input and a position and returns the length of the match at that
position, if any, reproducing the backtracking behaviour of the Python
pattern (flags re.X | re.M, so dot never matches a newline and anchors
are per line).  Character classes are modelled over their concrete
behaviour: the Python class [^\S\n] (whitespace except newline) and \d,
\w etc. are given explicit Boolean definitions; word characters are
modelled as ASCII alphanumerics, underscore and codepoints at or above
0x80, matching how the patterns behave on the inputs of this grammar.
-/

namespace EdgeSchema

/-- Source position, 1-based line and column (spec section 3). -/
structure Pos where
  line : Nat
  column : Nat
  deriving DecidableEq, Repr

/-- Token record: kind tag, matched text, start and end position.  The
field stop stands for the end attribute of the Python token (the
position one past the last consumed character). -/
structure Token where
  type : String
  text : String
  start : Pos
  stop : Pos
  deriving DecidableEq, Repr

/-- Lexer states; STATE_KEEP from the source is rendered as none in the
next_state field of a rule. -/
inductive LState where
  | wsSensitive
  | wsInsensitive
  | rawString
  deriving DecidableEq, Repr

/-- A lexer rule: token kind, state transition (none = STATE_KEEP) and a
matcher translated from the regexp of the rule. -/
structure Rule where
  token : String
  next_state : Option LState
  re : List Char → Nat → Option Nat

/-- Character at an absolute position, if inside the input. -/
def charAt (s : List Char) (p : Nat) : Option Char :=
  (s.drop p).head?

/-- Python \s over ASCII: space, tab, newline, carriage return, vertical
tab, form feed. -/
def isPySpace (c : Char) : Bool :=
  c = ' ' || c = '\t' || c = '\n' || c = '\r' || c = '\x0b' || c = '\x0c'

/-- The class [^\S\n]: whitespace that is not a newline. -/
def isWsNoNl (c : Char) : Bool :=
  isPySpace c && !(c = '\n')

/-- The class [0-9] (and \d over ASCII). -/
def isDigitC (c : Char) : Bool :=
  '0' ≤ c && c ≤ '9'

/-- Word characters \w: ASCII alphanumerics, underscore, and high
codepoints (modelling the unicode letters accepted by Python). -/
def isWordChar (c : Char) : Bool :=
  c.isAlphanum || c = '_' || 0x80 ≤ c.toNat

/-- Length of the run of characters satisfying f starting at p. -/
def runLen (f : Char → Bool) (s : List Char) (p : Nat) : Nat :=
  ((s.drop p).takeWhile f).length

/-- Length of the maximal digit run at p. -/
def digitsRun (s : List Char) (p : Nat) : Nat :=
  runLen isDigitC s p

/-- The multiline anchor ^: start of input or right after a newline. -/
def atLineStart (s : List Char) (p : Nat) : Bool :=
  p = 0 || charAt s (p - 1) = some '\n'

/-- The lookbehind (?<=:=). -/
def lookbehindTurnstile (s : List Char) (p : Nat) : Bool :=
  2 ≤ p && charAt s (p - 2) = some ':' && charAt s (p - 1) = some '='

/-- Matcher for a literal string (used for punctuation rules and for
keyword rules, whose pattern is the exact keyword spelling). -/
def reLit (lit : String) : List Char → Nat → Option Nat := fun s p =>
  if lit.data.isPrefixOf (s.drop p) then some lit.data.length else none

/-- COMMENT rule, pattern \#[^\n]*$ : a hash sign then everything up to
the end of the line. -/
def commentRe : List Char → Nat → Option Nat := fun s p =>
  if charAt s p = some '#' then
    some (1 + runLen (fun c => !(c = '\n')) s (p + 1))
  else none

/-- WS rule, pattern [^\S\n]+ . -/
def wsRe : List Char → Nat → Option Nat := fun s p =>
  let n := runLen isWsNoNl s p
  if n = 0 then none else some n

/-- NEWLINE rule, pattern \n . -/
def newlineRe : List Char → Nat → Option Nat := fun s p =>
  if charAt s p = some '\n' then some 1 else none

/-- MAPPING rule, pattern [1*][1*] . -/
def mappingRe : List Char → Nat → Option Nat := fun s p =>
  match charAt s p, charAt s (p + 1) with
  | some a, some b =>
      if (a = '1' || a = '*') && (b = '1' || b = '*') then some 2 else none
  | _, _ => none

/-- ICONST rule, pattern \d+(?![eE.0-9]) : a maximal digit run whose
following character (if any) is not e, E, a dot or a digit.  Shorter
runs can never satisfy the lookahead, so the whole rule fails when the
maximal run does. -/
def iconstRe : List Char → Nat → Option Nat := fun s p =>
  let d := digitsRun s p
  if d = 0 then none
  else
    match charAt s (p + d) with
    | some c => if c = 'e' || c = 'E' || c = '.' || isDigitC c then none else some d
    | none => some d

/-- The fragment {int} = [0-9](?:[0-9_]*[0-9])? : one digit, then
greedily digits and underscores but ending on a digit (trailing
underscores are left unconsumed). -/
def intPartLen (s : List Char) (p : Nat) : Option Nat :=
  if isDigitC ((charAt s p).getD ' ') then
    let run := (s.drop (p + 1)).takeWhile (fun c => isDigitC c || c = '_')
    some (1 + (run.reverse.dropWhile (fun c => c = '_')).length)
  else none

/-- The fragment {exppart} = (?:[eE][\+\-]?{int}) . -/
def expPartLen (s : List Char) (p : Nat) : Option Nat :=
  match charAt s p with
  | some c =>
      if c = 'e' || c = 'E' then
        let sgn := match charAt s (p + 1) with
          | some c2 => if c2 = '+' || c2 = '-' then 1 else 0
          | none => 0
        match intPartLen s (p + 1 + sgn) with
        | some m => some (1 + sgn + m)
        | none => none
      else none
  | none => none

/-- First FCONST rule, pattern (?: \d+(?:\.\d*)? | \.\d+ ) {exppart} :
the exponent part is mandatory.  Greedy digit runs are faithful because
backtracking into them can never make the following [eE] match. -/
def fconst1Re : List Char → Nat → Option Nat := fun s p =>
  let d := digitsRun s p
  if d ≠ 0 then
    let frac :=
      match charAt s (p + d) with
      | some c => if c = '.' then 1 + digitsRun s (p + d + 1) else 0
      | none => 0
    match expPartLen s (p + d + frac) with
    | some m => some (d + frac + m)
    | none => none
  else if charAt s p = some '.' then
    let d2 := digitsRun s (p + 1)
    if d2 = 0 then none
    else
      match expPartLen s (p + 1 + d2) with
      | some m => some (1 + d2 + m)
      | none => none
  else none

/-- Second FCONST rule, pattern (?: \d+\.(?!\.)\d* | \.\d+ ) . -/
def fconst2Re : List Char → Nat → Option Nat := fun s p =>
  let d := digitsRun s p
  if d ≠ 0 then
    if charAt s (p + d) = some '.' && !(charAt s (p + d + 1) = some '.') then
      some (d + 1 + digitsRun s (p + d + 1))
    else none
  else if charAt s p = some '.' then
    let d2 := digitsRun s (p + 1)
    if d2 = 0 then none else some (1 + d2)
  else none

/-- Letter class of the dollar-quote fragment: [A-Za-z\200-\377_]. -/
def isDqLetter (c : Char) : Bool :=
  ('A' ≤ c && c ≤ 'Z') || ('a' ≤ c && c ≤ 'z') || c = '_' ||
    (0x80 ≤ c.toNat && c.toNat ≤ 0xFF)

theorem charAt_some_lt {s : List Char} {p : Nat} {c : Char}
    (h : charAt s p = some c) : p < s.length := by
  by_contra hnot
  have hd : s.drop p = [] := List.drop_eq_nil_of_le (Nat.le_of_not_lt hnot)
  simp [charAt, hd] at h

/-- Total length consumed by the repetition ([A-Za-z\200-\377_][0-9]*)*
scanned greedily from p.  Greediness is faithful: the character after
the repetition must be a dollar sign, which neither class contains. -/
def dqReps (s : List Char) (p : Nat) : Nat :=
  match h : charAt s p with
  | some c =>
      if isDqLetter c then
        have : p < s.length := charAt_some_lt h
        let d := digitsRun s (p + 1)
        1 + d + dqReps s (p + 1 + d)
      else 0
  | none => 0
termination_by s.length - p
decreasing_by
  omega

/-- The dollar-quote fragment \$([A-Za-z\200-\377_][0-9]*)*\$ ; returns
the full length including both dollar signs. -/
def dollarQuoteLen (s : List Char) (p : Nat) : Option Nat :=
  if charAt s p = some '$' then
    let k := dqReps s (p + 1)
    if charAt s (p + 1 + k) = some '$' then some (k + 2) else none
  else none

/-- Length of the opening quote of a STRING: a single quote character or
a dollar quote (the two alternatives of the group Q, in order). -/
def openerLen (s : List Char) (p : Nat) : Option Nat :=
  if charAt s p = some '\'' then some 1 else dollarQuoteLen s p

/-- Scan for the closing quote: the non-greedy body .*? accepts any
characters except newlines, and the backreference (?P=Q) requires the
exact opener text.  Returns the length consumed from q up to and
including the closing quote. -/
def findCloseFrom (s : List Char) (q : Nat) (opener : List Char) : Option Nat :=
  if opener.isPrefixOf (s.drop q) then some opener.length
  else
    match h : charAt s q with
    | some c =>
        if c = '\n' then none
        else
          have : q < s.length := charAt_some_lt h
          match findCloseFrom s (q + 1) opener with
          | some m => some (1 + m)
          | none => none
    | none => none
termination_by s.length - q
decreasing_by
  omega

/-- STRING rule: opening quote, shortest body, matching closing quote. -/
def stringRe : List Char → Nat → Option Nat := fun s p =>
  match openerLen s p with
  | some oLen =>
      match findCloseFrom s (p + oLen) ((s.drop p).take oLen) with
      | some m => some (oLen + m)
      | none => none
  | none => none

/-- First character of IDENT, class (?:[^\W\d]|\$) : a word character
that is not a digit, or a dollar sign. -/
def isIdentStart (c : Char) : Bool :=
  (isWordChar c && !(isDigitC c)) || c = '$'

/-- Continuation characters of IDENT, class (?:\w|\$) . -/
def isIdentCont (c : Char) : Bool :=
  isWordChar c || c = '$'

/-- IDENT rule. -/
def identRe : List Char → Nat → Option Nat := fun s p =>
  match charAt s p with
  | some c =>
      if isIdentStart c then some (1 + runLen isIdentCont s (p + 1)) else none
  | none => none

/-- Index of the last newline of a character list, if any. -/
def lastNl : List Char → Option Nat
  | [] => none
  | c :: rest =>
      match lastNl rest with
      | some j => some (j + 1)
      | none => if c = '\n' then some 0 else none

/-- First RAW_STRING rule: NEWLINE with pattern (?<=:=)\s*\n : greedy
whitespace run ending at its last contained newline. -/
def rawNewlineRe : List Char → Nat → Option Nat := fun s p =>
  if lookbehindTurnstile s p then
    match lastNl ((s.drop p).takeWhile isPySpace) with
    | some j => some (j + 1)
    | none => none
  else none

/-- Second RAW_STRING rule: RAWSTRING with pattern (?<=:=)[^\n]+?$ :
the rest of the current line, at least one character. -/
def rawRestOfLineRe : List Char → Nat → Option Nat := fun s p =>
  if lookbehindTurnstile s p then
    let k := runLen (fun c => !(c = '\n')) s p
    if k = 0 then none else some k
  else none

/-- Third RAW_STRING rule: RAWSTRING with pattern ^[^\S\n]*\n : an all
blank line including its newline. -/
def rawBlankLineRe : List Char → Nat → Option Nat := fun s p =>
  if atLineStart s p then
    let k := runLen isWsNoNl s p
    if charAt s (p + k) = some '\n' then some (k + 1) else none
  else none

/-- Fourth RAW_STRING rule: RAWLEADWS with pattern ^[^\S\n]+ . -/
def rawLeadWsRe : List Char → Nat → Option Nat := fun s p =>
  if atLineStart s p then
    let k := runLen isWsNoNl s p
    if k = 0 then none else some k
  else none

/-- Fifth RAW_STRING rule: RAWSTRING with pattern .*?(?:\n|.$) : by the
non-greedy body, this consumes a lone newline, or the content of the
current line up to (excluding) its newline, or up to end of input. -/
def rawCatchAllRe : List Char → Nat → Option Nat := fun s p =>
  if s.length ≤ p then none
  else
    let k := runLen (fun c => !(c = '\n')) s p
    if k = 0 then some 1 else some k

/-- Modelled from the spec: keyword rules are generated from a
configuration mapping literal-spelling to token kind (the module
edge_schema_keywords is not among the available sources); each keyword
rule matches exactly its spelling and keeps the state. -/
def keyword_rules (kw : List (String × String)) : List Rule :=
  kw.map (fun vt => { token := vt.2, next_state := none, re := reLit vt.1 })

/-- The common rules of the source, keyword rules first, in declaration
order (source lines 55-163). -/
def common_rules (kw : List (String × String)) : List Rule :=
  keyword_rules kw ++
  [ { token := "COMMENT", next_state := none, re := commentRe },
    { token := "WS", next_state := none, re := wsRe },
    { token := "NEWLINE", next_state := none, re := newlineRe },
    { token := "LPAREN", next_state := some LState.wsInsensitive, re := reLit "(" },
    { token := "RPAREN", next_state := some LState.wsSensitive, re := reLit ")" },
    { token := "LSBRACKET", next_state := some LState.wsInsensitive, re := reLit "[" },
    { token := "RSBRACKET", next_state := some LState.wsSensitive, re := reLit "]" },
    { token := "LCBRACKET", next_state := some LState.wsInsensitive, re := reLit "\x7b" },
    { token := "RCBRACKET", next_state := some LState.wsSensitive, re := reLit "\x7d" },
    { token := "COMMA", next_state := none, re := reLit "," },
    { token := "DOUBLECOLON", next_state := none, re := reLit "::" },
    { token := "TURNSTILE", next_state := some LState.rawString, re := reLit ":=" },
    { token := "COLON", next_state := none, re := reLit ":" },
    { token := "ARROW", next_state := none, re := reLit "->" },
    { token := "MAPPING", next_state := none, re := mappingRe },
    { token := "ICONST", next_state := none, re := iconstRe },
    { token := "FCONST", next_state := none, re := fconst1Re },
    { token := "FCONST", next_state := none, re := fconst2Re },
    { token := "DOT", next_state := none, re := reLit "." },
    { token := "STRING", next_state := none, re := stringRe },
    { token := "IDENT", next_state := none, re := identRe } ]

/-- The per-state rule tables (source lines 165-189). -/
def stateRules (kw : List (String × String)) : LState → List Rule
  | LState.wsSensitive => common_rules kw
  | LState.wsInsensitive => common_rules kw
  | LState.rawString =>
      [ { token := "NEWLINE", next_state := none, re := rawNewlineRe },
        { token := "RAWSTRING", next_state := some LState.wsSensitive, re := rawRestOfLineRe },
        { token := "RAWSTRING", next_state := none, re := rawBlankLineRe },
        { token := "RAWLEADWS", next_state := none, re := rawLeadWsRe },
        { token := "RAWSTRING", next_state := none, re := rawCatchAllRe } ]

/-- Modelled from the spec: rule dispatch tries the rules of the active
state strictly in declaration order and the first rule whose pattern
matches at the position wins (first-match-wins, not longest-match); the
combined-regex machinery lives in the absent base class. -/
def dispatch : List Rule → List Char → Nat → Option (Rule × Nat)
  | [], _, _ => none
  | r :: rs, s, p =>
      match r.re s p with
      | some n => some (r, n)
      | none => dispatch rs s p

/-- Dispatch projected to the token kind and the match length. -/
def dispatchKind (rules : List Rule) (s : List Char) (p : Nat) :
    Option (String × Nat) :=
  (dispatch rules s p).map (fun rn => (rn.1.token, rn.2))

/-- Mutable lexer state threaded through the scan: the indent stack with
its top at the head of the list (Python keeps the top at the end and
reads it as indent[-1]), the logical-line flag, the active state and the
one-shot pending state override. -/
structure Cfg where
  indent : List Nat
  logical_line_started : Bool
  state : LState
  next_state : Option LState
  deriving DecidableEq, Repr

/-- Errors of a lex pass.  fuelExhausted is an artifact of the
fuel-based encoding of the scan loop and is proved unreachable. -/
inductive LexErr where
  | indentation (msg : String) (line : Nat) (col : Nat)
  | unknownToken (line : Nat) (col : Nat)
  | fuelExhausted
  deriving DecidableEq, Repr

/-- insert_token of the source: a zero-width token whose start and end
are both the given position (callers pass token.start or token.stop for
the attrs pos selector). -/
def insert_token (toktype : String) (pos : Pos) : Token :=
  { type := toktype, text := "", start := pos, stop := pos }

/-- Token kinds that never start a logical line (source lines 221 and
300). -/
def excludedTypes : List String := ["NEWLINE", "WS", "COMMENT"]

/-- The dedent loop of the source (lines 234-244 and 276-286):
while indent[-1] > cur: pop; if indent[-1] < cur then fail else emit one
DEDENT.  Returns the number of emitted DEDENT tokens and the remaining
stack; none models the failure (the impossible pop of the bottom 0
sentinel is also mapped to none, it is unreachable while the stack
invariant holds since cur is a natural number). -/
def popIndent (cur : Nat) : List Nat → Option (Nat × List Nat)
  | [] => none
  | top :: rest =>
      if cur < top then
        match rest with
        | [] => none
        | top2 :: rest2 =>
            if top2 < cur then none
            else
              match popIndent cur (top2 :: rest2) with
              | some (n, st) => some (n + 1, st)
              | none => none
      else some (0, top :: rest)

/-- Python str.strip() produces an empty string exactly when the text is
all whitespace; token.value.strip() truthiness becomes the negation. -/
def isBlank (t : String) : Bool :=
  t.data.all isPySpace

/-- The indentation-handling part of token_generator (source lines
217-291).  Returns the synthesized tokens, the new indent stack, the new
one-shot state override, and the token to be yielded last (whose kind
the raw-string dedent branch retags to WS). -/
def indentPhase (cfg : Cfg) (token : Token) :
    Except LexErr (List Token × List Nat × Option LState × Token) :=
  let tok_type := token.type
  if cfg.state = LState.wsSensitive ∧ cfg.logical_line_started = false ∧
      ¬ tok_type ∈ excludedTypes then
    let last_indent := cfg.indent.headD 0
    let cur_indent := token.start.column - 1
    if last_indent < cur_indent then
      Except.ok ([insert_token "INDENT" token.start],
        (cur_indent :: cfg.indent, cfg.next_state, token))
    else if cur_indent < last_indent then
      match popIndent cur_indent cfg.indent with
      | some (n, st) =>
          Except.ok (List.replicate n (insert_token "DEDENT" token.start),
            (st, cfg.next_state, token))
      | none =>
          Except.error (LexErr.indentation "Incorrect unindent"
            token.start.line token.start.column)
    else Except.ok ([], (cfg.indent, cfg.next_state, token))
  else if cfg.state = LState.rawString then
    let last_indent := cfg.indent.headD 0
    let cur_indent := token.text.length
    if cfg.logical_line_started = false ∧ ¬ tok_type = "NEWLINE" then
      if tok_type = "RAWLEADWS" ∧ last_indent < cur_indent then
        Except.ok ([insert_token "INDENT" token.stop],
          (cur_indent :: cfg.indent, cfg.next_state, token))
      else if isBlank token.text = false then
        Except.error (LexErr.indentation "Incorrect indentation"
          token.stop.line token.stop.column)
      else Except.ok ([], (cfg.indent, cfg.next_state, token))
    else if tok_type = "RAWLEADWS" ∧ cur_indent < last_indent then
      match popIndent cur_indent cfg.indent with
      | some (n, st) =>
          Except.ok (insert_token "NL" token.start ::
              List.replicate n (insert_token "DEDENT" token.stop),
            (st, some LState.wsSensitive, { token with type := "WS" }))
      | none =>
          Except.error (LexErr.indentation "Incorrect unindent"
            token.stop.line token.stop.column)
    else Except.ok ([], (cfg.indent, cfg.next_state, token))
  else Except.ok ([], (cfg.indent, cfg.next_state, token))

/-- The logical-newline phase of token_generator (source lines 292-303),
acting on the outcome of the indentation phase: when a logical line is
open in WS_SENSITIVE or RAW_STRING and a NEWLINE arrives, an NL is
synthesized and the logical line closes; any kind outside
NEWLINE/WS/COMMENT opens a logical line.  The argument tok_type is the
kind captured at entry of token_generator (source line 215), before any
retagging; the raw token itself is yielded last. -/
def newlinePhase (cfg : Cfg) (tok_type : String) (toks : List Token)
    (indent2 : List Nat) (next2 : Option LState) (token2 : Token) :
    List Token × Cfg :=
  if cfg.logical_line_started = true ∧
      (cfg.state = LState.wsSensitive ∨ cfg.state = LState.rawString) ∧
      tok_type = "NEWLINE" then
    (toks ++ [insert_token "NL" token2.start, token2],
     { indent := indent2, logical_line_started := false,
       state := cfg.state, next_state := next2 })
  else if ¬ tok_type ∈ excludedTypes then
    (toks ++ [token2],
     { indent := indent2, logical_line_started := true,
       state := cfg.state, next_state := next2 })
  else
    (toks ++ [token2],
     { indent := indent2, logical_line_started := cfg.logical_line_started,
       state := cfg.state, next_state := next2 })

/-- token_generator of the source (lines 212-303): the indentation
phase, then the logical-newline phase, and finally the raw token
itself.  Returns all yielded tokens in order and the updated state. -/
def token_generator (cfg : Cfg) (token : Token) :
    Except LexErr (List Token × Cfg) :=
  match indentPhase cfg token with
  | Except.error e => Except.error e
  | Except.ok (toks, indent2, next2, token2) =>
      Except.ok (newlinePhase cfg token.type toks indent2 next2 token2)

/-- The unwinding loop of get_eof_tokens (source lines 202-204):
while indent[-1] > 0: pop; emit one DEDENT.  Returns the number of
DEDENT tokens and the remaining stack. -/
def eofUnwind : List Nat → Nat × List Nat
  | [] => (0, [])
  | top :: rest =>
      if 0 < top then
        let nr := eofUnwind rest
        (nr.1 + 1, nr.2)
      else (0, top :: rest)

/-- get_eof_tokens of the source (lines 195-204): a final NL when a
logical line is still open, then the dedent unwinding when the stack has
more than one level.  Returns the emitted tokens and the final stack. -/
def get_eof_tokens (cfg : Cfg) (pos : Pos) : List Token × List Nat :=
  let nl := if cfg.logical_line_started then [insert_token "NL" pos] else []
  if 1 < cfg.indent.length then
    let nr := eofUnwind cfg.indent
    (nl ++ List.replicate nr.1 (insert_token "DEDENT" pos), nr.2)
  else (nl, cfg.indent)

/-- The state-switch step at the bottom of the scan loop (source lines
340-348): a rule with a truthy next_state different from the current
state wins; otherwise a pending one-shot override is applied and
cleared. -/
def applyStateSwitch (ruleNext : Option LState) (cfg : Cfg) : Cfg :=
  match ruleNext with
  | some ns =>
      if ¬ ns = cfg.state then { cfg with state := ns }
      else
        match cfg.next_state with
        | some ns2 => { cfg with state := ns2, next_state := none }
        | none => cfg
  | none =>
      match cfg.next_state with
      | some ns2 => { cfg with state := ns2, next_state := none }
      | none => cfg

/-- Position advance over consumed text (modelled from the spec: 1-based
positions advanced by the driver over every consumed character,
including embedded newlines). -/
def advancePos (p : Pos) : List Char → Pos
  | [] => p
  | c :: rest =>
      advancePos (if c = '\n' then { line := p.line + 1, column := 1 }
                  else { line := p.line, column := p.column + 1 }) rest

/-- The scan loop of lex (source lines 322-348), fuel-based.  At each
position the active state table is dispatched; no match models the
synthetic err alternative and raises the unknown-token error; otherwise
the raw token is built from the matched kind and text, passed through
token_generator, the state switch is applied and the scan continues
after the match.  At end of input the EOF tokens are emitted (source
lines 350-352). -/
def lexLoop (kw : List (String × String)) (s : List Char) :
    Nat → Nat → Pos → Cfg → Except LexErr (List Token)
  | 0, _, _, _ => Except.error LexErr.fuelExhausted
  | fuel + 1, p, pos, cfg =>
      if p < s.length then
        match dispatch (stateRules kw cfg.state) s p with
        | none => Except.error (LexErr.unknownToken pos.line pos.column)
        | some (r, n) =>
            let txt : List Char := (s.drop p).take n
            let stop := advancePos pos txt
            let token : Token :=
              { type := r.token, text := String.mk txt, start := pos, stop := stop }
            match token_generator cfg token with
            | Except.error e => Except.error e
            | Except.ok (toks, cfg2) =>
                match lexLoop kw s fuel (p + n) stop (applyStateSwitch r.next_state cfg2) with
                | Except.error e => Except.error e
                | Except.ok rest => Except.ok (toks ++ rest)
      else Except.ok (get_eof_tokens cfg pos).1

/-- The initial state of a lex pass (source lines 313-316 and the class
attribute start_state). -/
def initCfg : Cfg :=
  { indent := [0], logical_line_started := true,
    state := LState.wsSensitive, next_state := none }

/-- lex of the source (lines 305-352), parameterized by the keyword
table.  The fuel length+1 is enough because every rule consumes at least
one character. -/
def lex (kw : List (String × String)) (src : String) : Except LexErr (List Token) :=
  lexLoop kw src.data (src.data.length + 1) 0 { line := 1, column := 1 } initCfg

/-- Kinds and texts of a token list (used to state concrete runs). -/
def kindsTexts : Except LexErr (List Token) → List (String × String)
  | Except.ok l => l.map (fun t => (t.type, t.text))
  | Except.error _ => []

/-- Subsequence test for a pattern of kinds with an optional exact text
(used to state order-of-appearance properties of a token stream). -/
def hasSubseq : List (String × Option String) → List (String × String) → Bool
  | [], _ => true
  | _ :: _, [] => false
  | q :: qs, t :: ts =>
      if q.1 = t.1 && (match q.2 with | some x => x = t.2 | none => true) then
        hasSubseq qs ts
      else hasSubseq (q :: qs) ts

/-- The Boolean indent-stack invariant: non-empty, bottom element 0,
strictly increasing from bottom to top (the stack is kept top-first
here, so adjacent elements strictly decrease towards the final 0). -/
def indentInv : List Nat → Bool
  | [] => false
  | [x] => x = 0
  | a :: b :: rest => b < a && indentInv (b :: rest)


/-- The two keywords used in concrete runs, modelled from the spec:
the keyword table is configuration mapping exact spellings to kinds. -/
def kwAbstractLink : List (String × String) :=
  [("abstract", "ABSTRACT"), ("link", "LINK")]

/-- The input of the concrete scenario of the spec. -/
def c9input : String := "abstract link foo:\n    bar := 1\n"

/-- Shorthand constructors for concrete positions, tokens and
configurations used in statements. -/
def posAt (li co : Nat) : Pos :=
  { line := li, column := co }

def mkTok (ty tx : String) (a b : Pos) : Token :=
  { type := ty, text := tx, start := a, stop := b }

def mkCfg (ind : List Nat) (ll : Bool) (st : LState) (ns : Option LState) : Cfg :=
  { indent := ind, logical_line_started := ll, state := st, next_state := ns }

end EdgeSchema

namespace TypeUtils

/-- A Python class modelled by the subclass relationships that
typeutils.py consults. -/
structure PyClass where
  subclassOfContainer : Bool
  subclassOfIterable : Bool
  subclassOfStr : Bool
  subclassOfBytes : Bool
  subclassOfBytearray : Bool
  subclassOfMemoryview : Bool
  deriving DecidableEq, Repr

/-- _is_container_type of typeutils.py (lines 24-29): subclass of
collections.abc.Container and not of str, bytes, bytearray or
memoryview.  The lru_cache decorator does not change the value. -/
def _is_container_type (cls : PyClass) : Bool :=
  cls.subclassOfContainer &&
    !(cls.subclassOfStr || cls.subclassOfBytes ||
      cls.subclassOfBytearray || cls.subclassOfMemoryview)

/-- _is_iterable_type of typeutils.py (lines 32-36). -/
def _is_iterable_type (cls : PyClass) : Bool :=
  cls.subclassOfIterable

/-- A Python object modelled by its class. -/
structure PyObj where
  cls : PyClass
  deriving DecidableEq, Repr

/-- is_container of typeutils.py (lines 39-41). -/
def is_container (obj : PyObj) : Bool :=
  _is_container_type obj.cls && _is_iterable_type obj.cls

/-- The class str: a Container, an Iterable, and a subclass of str. -/
def strClass : PyClass :=
  { subclassOfContainer := true, subclassOfIterable := true,
    subclassOfStr := true, subclassOfBytes := false,
    subclassOfBytearray := false, subclassOfMemoryview := false }

/-- The class bytes: a Container, an Iterable, and a subclass of
bytes. -/
def bytesClass : PyClass :=
  { subclassOfContainer := true, subclassOfIterable := true,
    subclassOfStr := false, subclassOfBytes := true,
    subclassOfBytearray := false, subclassOfMemoryview := false }

end TypeUtils

namespace EdgeSchema

theorem indentInv_cons {a : Nat} {l : List Nat} (h : indentInv l = true)
    (hl : l.headD 0 < a) : indentInv (a :: l) = true := by
  cases l with
  | nil => simp [indentInv] at h
  | cons b rest =>
      simp only [List.headD_cons] at hl
      simp only [indentInv, Bool.and_eq_true]
      exact ⟨by simpa using hl, h⟩

theorem indentInv_tail {a : Nat} {l : List Nat} (h : indentInv (a :: l) = true)
    (hne : l ≠ []) : indentInv l = true := by
  cases l with
  | nil => exact absurd rfl hne
  | cons b rest =>
      simp only [indentInv, Bool.and_eq_true] at h
      exact h.2

theorem indentInv_head_lt {a x : Nat} {l : List Nat}
    (h : indentInv (a :: l) = true) (hx : x ∈ l) : x < a := by
  induction l generalizing a with
  | nil => simp at hx
  | cons b rest ih =>
      simp only [indentInv, Bool.and_eq_true] at h
      rcases List.mem_cons.mp hx with rfl | hx2
      · simpa using h.1
      · exact Nat.lt_trans (ih h.2 hx2) (by simpa using h.1)

theorem indentInv_singleton {a : Nat} (h : indentInv [a] = true) : a = 0 := by
  simpa [indentInv] using h

theorem popIndent_cons_cons (cur a b : Nat) (rest2 : List Nat) :
    popIndent cur (a :: b :: rest2) =
      if cur < a then
        if b < cur then none
        else
          match popIndent cur (b :: rest2) with
          | some (n, st) => some (n + 1, st)
          | none => none
      else some (0, a :: b :: rest2) := rfl

theorem popIndent_cons_nil (cur a : Nat) :
    popIndent cur [a] = if cur < a then none else some (0, [a]) := rfl

theorem popIndent_eq_of_mem {cur : Nat} {l : List Nat}
    (hinv : indentInv l = true) (hmem : cur ∈ l) :
    popIndent cur l =
      some (l.length - (l.dropWhile (fun a => decide (cur < a))).length,
            l.dropWhile (fun a => decide (cur < a))) := by
  induction l with
  | nil => simp at hmem
  | cons a rest ih =>
      by_cases hca : cur < a
      · have hmem2 : cur ∈ rest := by
          rcases List.mem_cons.mp hmem with rfl | h2
          · exact absurd hca (lt_irrefl cur)
          · exact h2
        cases rest with
        | nil => simp at hmem2
        | cons b rest2 =>
            have hinv2 : indentInv (b :: rest2) = true :=
              indentInv_tail hinv (by simp)
            have hbc : ¬ b < cur := by
              rcases List.mem_cons.mp hmem2 with rfl | h3
              · exact lt_irrefl cur
              · exact Nat.not_lt.mpr (Nat.le_of_lt (indentInv_head_lt hinv2 h3))
            have hrec := ih hinv2 hmem2
            have hlen : ((b :: rest2).dropWhile (fun a => decide (cur < a))).length
                ≤ (b :: rest2).length :=
              (List.dropWhile_sublist _).length_le
            rw [popIndent_cons_cons, if_pos hca, if_neg hbc, hrec]
            have hdw : (a :: b :: rest2).dropWhile (fun a => decide (cur < a))
                = (b :: rest2).dropWhile (fun a => decide (cur < a)) := by
              simp [List.dropWhile, hca]
            rw [hdw]
            simp only [Option.some.injEq, Prod.mk.injEq, List.length_cons] at hlen ⊢
            refine ⟨by omega, by trivial⟩
      · have hcur : cur = a := by
          rcases List.mem_cons.mp hmem with rfl | h2
          · rfl
          · exact absurd (indentInv_head_lt hinv h2) hca
        have hdw : (a :: rest).dropWhile (fun a => decide (cur < a)) = a :: rest := by
          simp [List.dropWhile, hca]
        rw [hdw, Nat.sub_self]
        cases rest with
        | nil => rw [popIndent_cons_nil, if_neg hca]
        | cons b rest2 => rw [popIndent_cons_cons, if_neg hca]

theorem popIndent_none_of_not_mem {cur : Nat} {l : List Nat}
    (hinv : indentInv l = true) (hlt : cur < l.headD 0) (hmem : ¬ cur ∈ l) :
    popIndent cur l = none := by
  induction l with
  | nil => simp [indentInv] at hinv
  | cons a rest ih =>
      have hca : cur < a := by simpa using hlt
      cases rest with
      | nil =>
          have : a = 0 := indentInv_singleton hinv
          omega
      | cons b rest2 =>
          by_cases hbc : b < cur
          · rw [popIndent_cons_cons, if_pos hca, if_pos hbc]
          · have hinv2 : indentInv (b :: rest2) = true :=
              indentInv_tail hinv (by simp)
            have hb : ¬ cur = b := fun h => hmem (by simp [h])
            have hcb : cur < b := Nat.lt_of_le_of_ne (Nat.not_lt.mp hbc) hb
            have hrec := ih hinv2 (by simpa using hcb)
              (fun h => hmem (List.mem_cons_of_mem a h))
            rw [popIndent_cons_cons, if_pos hca, if_neg hbc, hrec]

theorem popIndent_inv {cur : Nat} {l st : List Nat} {n : Nat}
    (hinv : indentInv l = true) (h : popIndent cur l = some (n, st)) :
    indentInv st = true := by
  induction l generalizing n with
  | nil => simp [popIndent] at h
  | cons a rest ih =>
      by_cases hca : cur < a
      · cases rest with
        | nil => rw [popIndent_cons_nil, if_pos hca] at h; exact absurd h (by simp)
        | cons b rest2 =>
            by_cases hbc : b < cur
            · rw [popIndent_cons_cons, if_pos hca, if_pos hbc] at h
              exact absurd h (by simp)
            · have hinv2 : indentInv (b :: rest2) = true :=
                indentInv_tail hinv (by simp)
              rw [popIndent_cons_cons, if_pos hca, if_neg hbc] at h
              cases hrec : popIndent cur (b :: rest2) with
              | none => rw [hrec] at h; simp at h
              | some pr =>
                  rw [hrec] at h
                  obtain ⟨n2, st2⟩ := pr
                  simp only [Option.some.injEq, Prod.mk.injEq] at h
                  obtain ⟨_, hst⟩ := h
                  exact ih hinv2 (hst ▸ hrec)
      · cases rest with
        | nil =>
            rw [popIndent_cons_nil, if_neg hca] at h
            simp only [Option.some.injEq, Prod.mk.injEq] at h
            exact h.2 ▸ hinv
        | cons b rest2 =>
            rw [popIndent_cons_cons, if_neg hca] at h
            simp only [Option.some.injEq, Prod.mk.injEq] at h
            exact h.2 ▸ hinv

theorem dropWhile_headD_of_mem {cur : Nat} {l : List Nat}
    (hinv : indentInv l = true) (hmem : cur ∈ l) :
    (l.dropWhile (fun a => decide (cur < a))).headD 0 = cur := by
  induction l with
  | nil => simp at hmem
  | cons a rest ih =>
      by_cases hca : cur < a
      · have hmem2 : cur ∈ rest := by
          rcases List.mem_cons.mp hmem with rfl | h2
          · exact absurd hca (lt_irrefl cur)
          · exact h2
        have hne : rest ≠ [] := by
          intro h; rw [h] at hmem2; simp at hmem2
        have := ih (indentInv_tail hinv hne) hmem2
        simpa [List.dropWhile, hca] using this
      · have hcur : cur = a := by
          rcases List.mem_cons.mp hmem with rfl | h2
          · rfl
          · exact absurd (indentInv_head_lt hinv h2) hca
        simp [List.dropWhile, hca, hcur]

theorem eofUnwind_eq {l : List Nat} (hinv : indentInv l = true) :
    eofUnwind l = (l.length - 1, [0]) := by
  induction l with
  | nil => simp [indentInv] at hinv
  | cons a rest ih =>
      cases rest with
      | nil =>
          have : a = 0 := indentInv_singleton hinv
          simp [eofUnwind, this]
      | cons b rest2 =>
          have hba : b < a := by
            have := hinv
            simp only [indentInv, Bool.and_eq_true] at this
            simpa using this.1
          have hpos : 0 < a := Nat.lt_of_le_of_lt (Nat.zero_le b) hba
          have hrec := ih (indentInv_tail hinv (by simp))
          simp only [eofUnwind] at hrec ⊢
          rw [if_pos hpos, hrec]
          simp only [List.length_cons, Prod.mk.injEq]
          exact ⟨by omega, by trivial⟩

theorem dispatch_mem {l : List Rule} {s : List Char} {p : Nat} {r : Rule} {n : Nat}
    (h : dispatch l s p = some (r, n)) : r ∈ l ∧ r.re s p = some n := by
  induction l with
  | nil => simp [dispatch] at h
  | cons r0 rs ih =>
      simp only [dispatch] at h
      cases h0 : r0.re s p with
      | some m =>
          rw [h0] at h
          simp only [Option.some.injEq, Prod.mk.injEq] at h
          obtain ⟨rfl, rfl⟩ := h
          exact ⟨List.mem_cons_self _ _, h0⟩
      | none =>
          rw [h0] at h
          obtain ⟨hm, hre⟩ := ih h
          exact ⟨List.mem_cons_of_mem _ hm, hre⟩

theorem dispatch_none_forall {l : List Rule} {s : List Char} {p : Nat}
    (h : dispatch l s p = none) : ∀ r ∈ l, r.re s p = none := by
  induction l with
  | nil => simp
  | cons r0 rs ih =>
      simp only [dispatch] at h
      cases h0 : r0.re s p with
      | some m => rw [h0] at h; simp at h
      | none =>
          rw [h0] at h
          intro r hr
          rcases List.mem_cons.mp hr with rfl | hr2
          · exact h0
          · exact ih h r hr2

theorem dispatch_append_of_some {l1 : List Rule} (l2 : List Rule)
    {s : List Char} {p : Nat}
    {r : Rule} {n : Nat} (h : dispatch l1 s p = some (r, n)) :
    dispatch (l1 ++ l2) s p = some (r, n) := by
  induction l1 with
  | nil => simp [dispatch] at h
  | cons r0 rs ih =>
      simp only [dispatch] at h ⊢
      cases h0 : r0.re s p with
      | some m => rw [h0] at h; rw [h]
      | none => rw [h0] at h; exact ih h

theorem dispatch_append_of_none {l1 l2 : List Rule} {s : List Char} {p : Nat}
    (h : dispatch l1 s p = none) :
    dispatch (l1 ++ l2) s p = dispatch l2 s p := by
  induction l1 with
  | nil => simp [dispatch]
  | cons r0 rs ih =>
      simp only [dispatch] at h ⊢
      cases h0 : r0.re s p with
      | some m => rw [h0] at h; simp at h
      | none => rw [h0] at h; exact ih h

theorem indentPhase_indent {cfg : Cfg} {token : Token} {toks : List Token}
    {ind2 : List Nat} {ns2 : Option LState} {tok2 : Token}
    (hinv : indentInv cfg.indent = true)
    (h : indentPhase cfg token = Except.ok (toks, ind2, ns2, tok2)) :
    indentInv ind2 = true := by
  simp only [indentPhase] at h
  repeat' split at h
  all_goals cases h
  all_goals first
    | exact hinv
    | exact indentInv_cons hinv (by assumption)
    | exact popIndent_inv hinv (by assumption)
    | (rename_i hc; exact indentInv_cons hinv hc.2)

theorem indentPhase_error {cfg : Cfg} {token : Token} {e : LexErr}
    (h : indentPhase cfg token = Except.error e) :
    ∃ m li co, e = LexErr.indentation m li co := by
  simp only [indentPhase] at h
  repeat' split at h
  all_goals cases h
  all_goals exact ⟨_, _, _, rfl⟩

theorem newlinePhase_indent (cfg : Cfg) (ty : String) (toks : List Token)
    (i : List Nat) (n : Option LState) (t : Token) :
    (newlinePhase cfg ty toks i n t).2.indent = i := by
  unfold newlinePhase
  split
  · rfl
  · split <;> rfl

theorem newlinePhase_state (cfg : Cfg) (ty : String) (toks : List Token)
    (i : List Nat) (n : Option LState) (t : Token) :
    (newlinePhase cfg ty toks i n t).2.state = cfg.state := by
  unfold newlinePhase
  split
  · rfl
  · split <;> rfl

theorem token_generator_indent {cfg : Cfg} {tok : Token} {toks : List Token}
    {cfg2 : Cfg} (hinv : indentInv cfg.indent = true)
    (h : token_generator cfg tok = Except.ok (toks, cfg2)) :
    indentInv cfg2.indent = true := by
  unfold token_generator at h
  cases hip : indentPhase cfg tok with
  | error e => rw [hip] at h; cases h
  | ok v =>
      obtain ⟨toksA, ind2, ns2, tok2⟩ := v
      rw [hip] at h
      injection h with hv
      have h2 : cfg2 = (newlinePhase cfg tok.type toksA ind2 ns2 tok2).2 := by
        rw [hv]
      rw [h2, newlinePhase_indent]
      exact indentPhase_indent hinv hip

theorem token_generator_error {cfg : Cfg} {tok : Token} {e : LexErr}
    (h : token_generator cfg tok = Except.error e) :
    ∃ m li co, e = LexErr.indentation m li co := by
  unfold token_generator at h
  cases hip : indentPhase cfg tok with
  | error e2 =>
      rw [hip] at h
      cases h
      exact indentPhase_error hip
  | ok v =>
      obtain ⟨toksA, ind2, ns2, tok2⟩ := v
      rw [hip] at h
      cases h

/-- The state field is never changed by token_generator itself (state
switches happen in the scan loop). -/
theorem token_generator_state {cfg : Cfg} {tok : Token} {toks : List Token}
    {cfg2 : Cfg} (h : token_generator cfg tok = Except.ok (toks, cfg2)) :
    cfg2.state = cfg.state := by
  unfold token_generator at h
  cases hip : indentPhase cfg tok with
  | error e => rw [hip] at h; cases h
  | ok v =>
      obtain ⟨toksA, ind2, ns2, tok2⟩ := v
      rw [hip] at h
      injection h with hv
      have h2 : cfg2 = (newlinePhase cfg tok.type toksA ind2 ns2 tok2).2 := by
        rw [hv]
      rw [h2]
      exact newlinePhase_state cfg tok.type toksA ind2 ns2 tok2

theorem applyStateSwitch_indent (ruleNext : Option LState) (cfg : Cfg) :
    (applyStateSwitch ruleNext cfg).indent = cfg.indent := by
  unfold applyStateSwitch
  split
  · split
    · rfl
    · split <;> rfl
  · split <;> rfl

/-- Configurations reachable from a starting configuration by steps of
the scan loop: a token passed through token_generator, or a state
switch. -/
inductive Reaches : Cfg → Cfg → Prop
  | refl (c : Cfg) : Reaches c c
  | gen {c b b2 : Cfg} {tok : Token} {toks : List Token} :
      Reaches c b → token_generator b tok = Except.ok (toks, b2) →
      Reaches c b2
  | switch {c b : Cfg} (ns : Option LState) :
      Reaches c b → Reaches c (applyStateSwitch ns b)

theorem stringData_ne_nil {v : String} (h : v ≠ "") : v.data ≠ [] := by
  intro hd
  apply h
  cases v with
  | mk data => subst hd; rfl

theorem reLit_ge1 {lit : String} {s : List Char} {p n : Nat}
    (hlit : lit.data ≠ []) (h : reLit lit s p = some n) : 1 ≤ n := by
  unfold reLit at h
  split at h
  · injection h with hn
    rw [← hn]
    exact List.length_pos.mpr hlit
  · cases h

theorem commentRe_ge1 {s : List Char} {p n : Nat}
    (h : commentRe s p = some n) : 1 ≤ n := by
  simp only [commentRe] at h
  repeat' split at h
  all_goals cases h
  all_goals omega

theorem wsRe_ge1 {s : List Char} {p n : Nat}
    (h : wsRe s p = some n) : 1 ≤ n := by
  simp only [wsRe] at h
  repeat' split at h
  all_goals cases h
  all_goals omega

theorem newlineRe_ge1 {s : List Char} {p n : Nat}
    (h : newlineRe s p = some n) : 1 ≤ n := by
  simp only [newlineRe] at h
  repeat' split at h
  all_goals cases h
  all_goals omega

theorem mappingRe_ge1 {s : List Char} {p n : Nat}
    (h : mappingRe s p = some n) : 1 ≤ n := by
  simp only [mappingRe] at h
  repeat' split at h
  all_goals cases h
  all_goals omega

theorem iconstRe_ge1 {s : List Char} {p n : Nat}
    (h : iconstRe s p = some n) : 1 ≤ n := by
  simp only [iconstRe] at h
  repeat' split at h
  all_goals cases h
  all_goals omega

theorem fconst1Re_ge1 {s : List Char} {p n : Nat}
    (h : fconst1Re s p = some n) : 1 ≤ n := by
  simp only [fconst1Re] at h
  repeat' split at h
  all_goals cases h
  all_goals omega

theorem fconst2Re_ge1 {s : List Char} {p n : Nat}
    (h : fconst2Re s p = some n) : 1 ≤ n := by
  simp only [fconst2Re] at h
  repeat' split at h
  all_goals cases h
  all_goals omega

theorem openerLen_ge1 {s : List Char} {p o : Nat}
    (h : openerLen s p = some o) : 1 ≤ o := by
  simp only [openerLen, dollarQuoteLen] at h
  repeat' split at h
  all_goals cases h
  all_goals omega

theorem stringRe_ge1 {s : List Char} {p n : Nat}
    (h : stringRe s p = some n) : 1 ≤ n := by
  simp only [stringRe] at h
  repeat' split at h
  all_goals cases h
  have ho : 1 ≤ _ := openerLen_ge1 (by assumption)
  omega

theorem identRe_ge1 {s : List Char} {p n : Nat}
    (h : identRe s p = some n) : 1 ≤ n := by
  simp only [identRe] at h
  repeat' split at h
  all_goals cases h
  all_goals omega

theorem rawNewlineRe_ge1 {s : List Char} {p n : Nat}
    (h : rawNewlineRe s p = some n) : 1 ≤ n := by
  simp only [rawNewlineRe] at h
  repeat' split at h
  all_goals cases h
  all_goals omega

theorem rawRestOfLineRe_ge1 {s : List Char} {p n : Nat}
    (h : rawRestOfLineRe s p = some n) : 1 ≤ n := by
  simp only [rawRestOfLineRe] at h
  repeat' split at h
  all_goals cases h
  all_goals omega

theorem rawBlankLineRe_ge1 {s : List Char} {p n : Nat}
    (h : rawBlankLineRe s p = some n) : 1 ≤ n := by
  simp only [rawBlankLineRe] at h
  repeat' split at h
  all_goals cases h
  all_goals omega

theorem rawLeadWsRe_ge1 {s : List Char} {p n : Nat}
    (h : rawLeadWsRe s p = some n) : 1 ≤ n := by
  simp only [rawLeadWsRe] at h
  repeat' split at h
  all_goals cases h
  all_goals omega

theorem rawCatchAllRe_ge1 {s : List Char} {p n : Nat}
    (h : rawCatchAllRe s p = some n) : 1 ≤ n := by
  simp only [rawCatchAllRe] at h
  repeat' split at h
  all_goals cases h
  all_goals omega

/-- Every rule of every state table consumes at least one character on a
successful match, provided keyword spellings are non-empty. -/
theorem stateRules_re_ge1 {kw : List (String × String)}
    (hkw : ∀ vt ∈ kw, vt.1 ≠ "") (st : LState) :
    ∀ r ∈ stateRules kw st, ∀ s p n, r.re s p = some n → 1 ≤ n := by
  have hcommon : ∀ r ∈ common_rules kw, ∀ s p n, r.re s p = some n → 1 ≤ n := by
    intro r hr s p n h
    rcases List.mem_append.mp hr with hk | ht
    · rcases List.mem_map.mp hk with ⟨vt, hvt, rfl⟩
      exact reLit_ge1 (stringData_ne_nil (hkw vt hvt)) h
    · fin_cases ht
      case «0» => exact commentRe_ge1 h
      case «1» => exact wsRe_ge1 h
      case «2» => exact newlineRe_ge1 h
      case «3» => exact reLit_ge1 (by decide) h
      case «4» => exact reLit_ge1 (by decide) h
      case «5» => exact reLit_ge1 (by decide) h
      case «6» => exact reLit_ge1 (by decide) h
      case «7» => exact reLit_ge1 (by decide) h
      case «8» => exact reLit_ge1 (by decide) h
      case «9» => exact reLit_ge1 (by decide) h
      case «10» => exact reLit_ge1 (by decide) h
      case «11» => exact reLit_ge1 (by decide) h
      case «12» => exact reLit_ge1 (by decide) h
      case «13» => exact reLit_ge1 (by decide) h
      case «14» => exact mappingRe_ge1 h
      case «15» => exact iconstRe_ge1 h
      case «16» => exact fconst1Re_ge1 h
      case «17» => exact fconst2Re_ge1 h
      case «18» => exact reLit_ge1 (by decide) h
      case «19» => exact stringRe_ge1 h
      case «20» => exact identRe_ge1 h
  intro r hr s p n h
  cases st with
  | wsSensitive => exact hcommon r hr s p n h
  | wsInsensitive => exact hcommon r hr s p n h
  | rawString =>
      fin_cases hr
      case «0» => exact rawNewlineRe_ge1 h
      case «1» => exact rawRestOfLineRe_ge1 h
      case «2» => exact rawBlankLineRe_ge1 h
      case «3» => exact rawLeadWsRe_ge1 h
      case «4» => exact rawCatchAllRe_ge1 h

theorem lexLoop_no_fuelExhausted {kw : List (String × String)}
    (hkw : ∀ vt ∈ kw, vt.1 ≠ "") (s : List Char) :
    ∀ fuel p pos cfg, s.length - p < fuel →
      lexLoop kw s fuel p pos cfg ≠ Except.error LexErr.fuelExhausted := by
  intro fuel
  induction fuel with
  | zero => intro p pos cfg hf; omega
  | succ f ih =>
      intro p pos cfg hf hc
      simp only [lexLoop] at hc
      by_cases hp : p < s.length
      case neg => rw [if_neg hp] at hc; cases hc
      case pos =>
        rw [if_pos hp] at hc
        split at hc
        case h_1 => cases hc
        case h_2 =>
            rename_i r n heq
            have hmem := dispatch_mem heq
            have hn : 1 ≤ n := stateRules_re_ge1 hkw cfg.state r hmem.1 s p n hmem.2
            split at hc
            · rename_i e heq2
              injection hc with he
              obtain ⟨m, li, co, hme⟩ := token_generator_error heq2
              rw [he] at hme
              cases hme
            · rename_i pr heq2
              split at hc
              · rename_i e heq3
                injection hc with he
                subst he
                exact ih (p + n) _ _ (by omega) heq3
              · cases hc

/-- get_eof_tokens under the stack invariant: one final NL exactly when
a logical line is open, then one DEDENT for every stack level above the
base, and the stack ends as the bare [0]. -/
theorem get_eof_tokens_eq {cfg : Cfg} (pos : Pos)
    (hinv : indentInv cfg.indent = true) :
    (get_eof_tokens cfg pos).1 =
      (if cfg.logical_line_started then [insert_token "NL" pos] else []) ++
        List.replicate (cfg.indent.length - 1) (insert_token "DEDENT" pos) ∧
    (get_eof_tokens cfg pos).2 = [0] := by
  unfold get_eof_tokens
  by_cases hl : 1 < cfg.indent.length
  · rw [if_pos hl, eofUnwind_eq hinv]
    exact ⟨rfl, rfl⟩
  · rw [if_neg hl]
    cases hind : cfg.indent with
    | nil => rw [hind] at hinv; cases hinv
    | cons a rest =>
        cases rest with
        | nil =>
            have : a = 0 := indentInv_singleton (hind ▸ hinv)
            simp [hind, this]
        | cons b rest2 =>
            rw [hind] at hl
            simp [List.length_cons] at hl


/-- C1: for every lex pass that reaches end of input without raising,
the EOF-closing tokens emitted after the last raw token are exactly one
NL if and only if a logical line is still open, followed by one DEDENT
per indent-stack level above the base level, after which the indent
stack is exactly [0]; the scan loop emits exactly these tokens once the
cursor reaches the end of the input. -/
theorem eof_closing_tokens (cfg : Cfg) (pos : Pos)
    (hinv : indentInv cfg.indent = true) :
    ((get_eof_tokens cfg pos).1.map Token.type =
        (if cfg.logical_line_started then ["NL"] else []) ++
          List.replicate (cfg.indent.length - 1) "DEDENT") ∧
    (get_eof_tokens cfg pos).2 = [0] ∧
    (∀ (kw : List (String × String)) (s : List Char) (p fuel : Nat) (q : Pos),
      s.length ≤ p →
      lexLoop kw s (fuel + 1) p q cfg = Except.ok (get_eof_tokens cfg q).1) := by
  obtain ⟨h1, h2⟩ := get_eof_tokens_eq pos hinv
  refine ⟨?_, h2, ?_⟩
  · rw [h1]
    cases hll : cfg.logical_line_started <;>
      simp [insert_token, List.map_replicate]
  · intro kw s p fuel q hsp
    simp only [lexLoop]
    rw [if_neg (Nat.not_lt.mpr hsp)]

theorem eof_closing_tokens_witness :
    ((get_eof_tokens
        { indent := [4, 0], logical_line_started := false,
          state := LState.wsSensitive, next_state := none }
        { line := 3, column := 1 }).1.map Token.type = ["DEDENT"]) ∧
    (get_eof_tokens
        { indent := [4, 0], logical_line_started := false,
          state := LState.wsSensitive, next_state := none }
        { line := 3, column := 1 }).2 = [0] :=
  ⟨(eof_closing_tokens _ _ (by decide)).1, (eof_closing_tokens _ _ (by decide)).2.1⟩

/-- C2: lex resets the indent stack to [0] at the start of a pass, and
at every step (after initialization and after each token produced by
token_generator or each state switch) the stack is non-empty, bottom
element 0, strictly increasing from bottom to top. -/
theorem indent_stack_invariant :
    initCfg.indent = [0] ∧ indentInv initCfg.indent = true ∧
    ∀ c : Cfg, Reaches initCfg c → indentInv c.indent = true := by
  refine ⟨rfl, by decide, ?_⟩
  intro c h
  induction h with
  | refl => decide
  | gen hr hstep ih => exact token_generator_indent ih hstep
  | switch ns hr ih => rw [applyStateSwitch_indent]; exact ih

theorem indent_stack_invariant_witness : indentInv initCfg.indent = true :=
  indent_stack_invariant.2.2 initCfg (Reaches.refl initCfg)

/-- C4: while the state is WS_INSENSITIVE, token_generator yields
exactly the raw token (no INDENT, DEDENT or NL is ever synthesized),
leaves the indent stack untouched and never fails; moreover no rule of
the WS_INSENSITIVE table carries one of those kinds, so no raw token of
that state is an INDENT, DEDENT or NL either. -/
theorem ws_insensitive_no_layout (kw : List (String × String)) (cfg : Cfg)
    (tok : Token)
    (hkw : ∀ vt ∈ kw, ¬ vt.2 ∈ ["INDENT", "DEDENT", "NL"])
    (hst : cfg.state = LState.wsInsensitive) :
    (∃ b : Bool, token_generator cfg tok =
      Except.ok ([tok], { cfg with logical_line_started := b })) ∧
    ∀ r ∈ stateRules kw LState.wsInsensitive,
      ¬ r.token ∈ ["INDENT", "DEDENT", "NL"] := by
  constructor
  · have hip : indentPhase cfg tok =
        Except.ok ([], cfg.indent, cfg.next_state, tok) := by
      unfold indentPhase
      rw [if_neg (by simp [hst]), if_neg (by simp [hst])]
    have hred : token_generator cfg tok =
        Except.ok (newlinePhase cfg tok.type [] cfg.indent cfg.next_state tok) := by
      unfold token_generator
      rw [hip]
    rw [hred]
    unfold newlinePhase
    rw [if_neg (by simp [hst])]
    by_cases hmem : tok.type ∈ excludedTypes
    · rw [if_neg (not_not_intro hmem)]
      exact ⟨cfg.logical_line_started, rfl⟩
    · rw [if_pos hmem]
      exact ⟨true, rfl⟩
  · intro r hr
    have hr2 : r ∈ common_rules kw := hr
    rcases List.mem_append.mp hr2 with hk | ht
    · rcases List.mem_map.mp hk with ⟨vt, hvt, rfl⟩
      exact hkw vt hvt
    · fin_cases ht <;> decide

theorem ws_insensitive_no_layout_witness :
    ∃ b : Bool,
      token_generator (mkCfg [0] false LState.wsInsensitive none)
          (mkTok "NEWLINE" "\n" (posAt 1 3) (posAt 2 1)) =
        Except.ok ([mkTok "NEWLINE" "\n" (posAt 1 3) (posAt 2 1)],
          { mkCfg [0] false LState.wsInsensitive none with
              logical_line_started := b }) :=
  (ws_insensitive_no_layout [] _ _ (by decide) rfl).1

/-- C10: is_container returns true exactly when the class of the object
is a subclass of both Container and Iterable and not a subclass of str,
bytes, bytearray or memoryview; in particular it returns false on every
str and bytes instance even though both classes are Containers and
Iterables. -/
theorem is_container_characterization :
    (∀ obj : TypeUtils.PyObj,
      TypeUtils.is_container obj =
        (obj.cls.subclassOfContainer && obj.cls.subclassOfIterable &&
          !(obj.cls.subclassOfStr || obj.cls.subclassOfBytes ||
            obj.cls.subclassOfBytearray || obj.cls.subclassOfMemoryview))) ∧
    TypeUtils.is_container { cls := TypeUtils.strClass } = false ∧
    TypeUtils.is_container { cls := TypeUtils.bytesClass } = false ∧
    TypeUtils.strClass.subclassOfContainer = true ∧
    TypeUtils.strClass.subclassOfIterable = true ∧
    TypeUtils.bytesClass.subclassOfContainer = true ∧
    TypeUtils.bytesClass.subclassOfIterable = true := by
  refine ⟨?_, rfl, rfl, rfl, rfl, rfl, rfl⟩
  intro obj
  obtain ⟨⟨a, b, c, d, e, f⟩⟩ := obj
  simp only [TypeUtils.is_container, TypeUtils._is_container_type,
    TypeUtils._is_iterable_type]
  cases a <;> cases b <;> cases c <;> cases d <;> cases e <;> cases f <;> rfl



theorem stringEta {a b : String} (h : a.data = b.data) : a = b :=
  String.ext h

theorem kw_lookup_unique {kw : List (String × String)}
    (hnodup : (kw.map Prod.fst).Nodup) {v t t2 : String}
    (h1 : (v, t) ∈ kw) (h2 : (v, t2) ∈ kw) : t = t2 := by
  induction kw with
  | nil => simp at h1
  | cons p rest ih =>
      simp only [List.map_cons, List.nodup_cons] at hnodup
      rcases List.mem_cons.mp h1 with he1 | h1r
      · rcases List.mem_cons.mp h2 with he2 | h2r
        · have h3 : (v, t) = (v, t2) := he1.trans he2.symm
          injection h3 with h4 h5
        · exfalso
          apply hnodup.1
          have hp1 : p.1 = v := by rw [← he1]
          rw [hp1]
          exact List.mem_map.mpr ⟨(v, t2), h2r, rfl⟩
      · rcases List.mem_cons.mp h2 with he2 | h2r
        · exfalso
          apply hnodup.1
          have hp1 : p.1 = v := by rw [← he2]
          rw [hp1]
          exact List.mem_map.mpr ⟨(v, t), h1r, rfl⟩
        · exact ih hnodup.2 h1r h2r

theorem dispatch_append_cases {l1 l2 : List Rule} {s : List Char} {p : Nat}
    {r : Rule} {n : Nat} (h : dispatch (l1 ++ l2) s p = some (r, n)) :
    (r ∈ l1 ∧ r.re s p = some n) ∨ dispatch l1 s p = none := by
  cases hd : dispatch l1 s p with
  | none => exact Or.inr rfl
  | some rn =>
      left
      have h2 := dispatch_append_of_some l2 hd
      rw [h2] at h
      injection h with h3
      exact dispatch_mem (h3 ▸ hd)

/-- C3: whenever dispatch in WS_SENSITIVE or WS_INSENSITIVE produces a
token whose text is exactly a configured keyword spelling, the rule
that fired is a keyword rule (keyword rules precede the identifier rule
under first-match-wins dispatch), so the token kind is that keyword
kind and never IDENT. -/
theorem keyword_precedence (kw : List (String × String)) (st : LState)
    (s : List Char) (p : Nat) (r : Rule) (n : Nat) (v t : String)
    (hst : st = LState.wsSensitive ∨ st = LState.wsInsensitive)
    (hnodup : (kw.map Prod.fst).Nodup)
    (hident : ∀ vt ∈ kw, vt.2 ≠ "IDENT")
    (hkw : (v, t) ∈ kw)
    (hd : dispatch (stateRules kw st) s p = some (r, n))
    (htext : (s.drop p).take n = v.data) :
    r.token = t ∧ r.token ≠ "IDENT" := by
  have hsr : stateRules kw st = common_rules kw := by
    rcases hst with rfl | rfl <;> rfl
  rw [hsr] at hd
  unfold common_rules at hd
  rcases dispatch_append_cases hd with ⟨hmem, hre⟩ | hnone
  · rcases List.mem_map.mp hmem with ⟨⟨v2, t2⟩, hvt2, rfl⟩
    have hre2 : reLit v2 s p = some n := hre
    unfold reLit at hre2
    split at hre2
    · rename_i hpre2
      injection hre2 with hn
      have hv2pre : v2.data <+: s.drop p := List.isPrefixOf_iff_prefix.mp hpre2
      have hv2eq : v2.data = (s.drop p).take v2.data.length :=
        List.prefix_iff_eq_take.mp hv2pre
      rw [hn, htext] at hv2eq
      have hveq : v2 = v := stringEta hv2eq
      subst hveq
      exact ⟨kw_lookup_unique hnodup hvt2 hkw, hident _ hvt2⟩
    · cases hre2
  · exfalso
    have hvpre : v.data <+: s.drop p := htext ▸ List.take_prefix n (s.drop p)
    have hvm : reLit v s p = some v.data.length := by
      unfold reLit
      rw [if_pos (List.isPrefixOf_iff_prefix.mpr hvpre)]
    have hnone3 : reLit v s p = none :=
      dispatch_none_forall hnone
        { token := t, next_state := none, re := reLit v }
        (List.mem_map.mpr ⟨(v, t), hkw, rfl⟩)
    rw [hvm] at hnone3
    cases hnone3

theorem keyword_precedence_witness :
    ∃ rn : Rule × Nat,
      dispatch (stateRules kwAbstractLink LState.wsSensitive)
          ("abstract".data) 0 = some rn ∧
      rn.1.token = "ABSTRACT" ∧ rn.1.token ≠ "IDENT" := by
  have hd : dispatch (stateRules kwAbstractLink LState.wsSensitive)
      ("abstract".data) 0 =
      some ({ token := "ABSTRACT", next_state := none, re := reLit "abstract" }, 8) := rfl
  have h := keyword_precedence kwAbstractLink LState.wsSensitive
    ("abstract".data) 0 _ 8 "abstract" "ABSTRACT" (Or.inl rfl) (by decide)
    (by decide) (by decide) hd (by decide)
  exact ⟨_, hd, h.1, h.2⟩



/-- C5: in WS_SENSITIVE with no logical line open, a token outside
NEWLINE/WS/COMMENT starting at an indent (column - 1) below the stack
top pops levels one at a time, emitting one DEDENT per pop positioned
at the token start, until the top equals that indent; it raises an
IndentationError at the token start line and column exactly when the
indent matches no recorded stack level. -/
theorem ws_sensitive_dedent (cfg : Cfg) (tok : Token)
    (hst : cfg.state = LState.wsSensitive)
    (hll : cfg.logical_line_started = false)
    (hty : ¬ tok.type ∈ excludedTypes)
    (hinv : indentInv cfg.indent = true)
    (hlt : tok.start.column - 1 < cfg.indent.headD 0) :
    ((tok.start.column - 1) ∈ cfg.indent →
      token_generator cfg tok = Except.ok
        (List.replicate
            (cfg.indent.length -
              (cfg.indent.dropWhile (fun a => decide (tok.start.column - 1 < a))).length)
            (insert_token "DEDENT" tok.start) ++ [tok],
          { indent := cfg.indent.dropWhile (fun a => decide (tok.start.column - 1 < a)),
            logical_line_started := true, state := cfg.state,
            next_state := cfg.next_state }) ∧
      (cfg.indent.dropWhile (fun a => decide (tok.start.column - 1 < a))).headD 0
        = tok.start.column - 1) ∧
    (¬ (tok.start.column - 1) ∈ cfg.indent →
      token_generator cfg tok = Except.error
        (LexErr.indentation "Incorrect unindent" tok.start.line tok.start.column)) := by
  constructor
  · intro hmem
    have hpop := popIndent_eq_of_mem hinv hmem
    have hip : indentPhase cfg tok = Except.ok
        (List.replicate
            (cfg.indent.length -
              (cfg.indent.dropWhile (fun a => decide (tok.start.column - 1 < a))).length)
            (insert_token "DEDENT" tok.start),
          cfg.indent.dropWhile (fun a => decide (tok.start.column - 1 < a)),
          cfg.next_state, tok) := by
      unfold indentPhase
      rw [if_pos ⟨hst, hll, hty⟩, if_neg (by omega), if_pos hlt, hpop]
    constructor
    · have hred : token_generator cfg tok =
          Except.ok (newlinePhase cfg tok.type
            (List.replicate
              (cfg.indent.length -
                (cfg.indent.dropWhile (fun a => decide (tok.start.column - 1 < a))).length)
              (insert_token "DEDENT" tok.start))
            (cfg.indent.dropWhile (fun a => decide (tok.start.column - 1 < a)))
            cfg.next_state tok) := by
        unfold token_generator
        rw [hip]
      rw [hred]
      unfold newlinePhase
      rw [if_neg (by simp [hll]), if_pos hty]
    · exact dropWhile_headD_of_mem hinv hmem
  · intro hmem
    have hpop := popIndent_none_of_not_mem hinv hlt hmem
    have hip : indentPhase cfg tok = Except.error
        (LexErr.indentation "Incorrect unindent" tok.start.line tok.start.column) := by
      unfold indentPhase
      rw [if_pos ⟨hst, hll, hty⟩, if_neg (by omega), if_pos hlt, hpop]
    unfold token_generator
    rw [hip]

theorem ws_sensitive_dedent_witness :
    token_generator (mkCfg [4, 0] false LState.wsSensitive none)
        (mkTok "IDENT" "c" (posAt 3 3) (posAt 3 4)) =
      Except.error (LexErr.indentation "Incorrect unindent" 3 3) :=
  (ws_sensitive_dedent (mkCfg [4, 0] false LState.wsSensitive none)
      (mkTok "IDENT" "c" (posAt 3 3) (posAt 3 4))
      rfl rfl (by decide) (by decide) (by decide)).2 (by decide)

/-- C6: in RAW_STRING with a logical line open, a RAWLEADWS token whose
character count is below the stack top synthesizes an NL, pops levels
emitting one DEDENT per pop positioned at the token end until the top
equals the count (raising an IndentationError when no recorded level
equals it), forces a one-shot transition back to WS_SENSITIVE and
reclassifies the token as WS. -/
theorem raw_string_dedent (cfg : Cfg) (tok : Token)
    (hst : cfg.state = LState.rawString)
    (hll : cfg.logical_line_started = true)
    (hty : tok.type = "RAWLEADWS")
    (hinv : indentInv cfg.indent = true)
    (hlt : tok.text.length < cfg.indent.headD 0) :
    (tok.text.length ∈ cfg.indent →
      token_generator cfg tok = Except.ok
        (insert_token "NL" tok.start ::
          (List.replicate
              (cfg.indent.length -
                (cfg.indent.dropWhile (fun a => decide (tok.text.length < a))).length)
              (insert_token "DEDENT" tok.stop) ++ [{ tok with type := "WS" }]),
          { indent := cfg.indent.dropWhile (fun a => decide (tok.text.length < a)),
            logical_line_started := true, state := cfg.state,
            next_state := some LState.wsSensitive }) ∧
      (cfg.indent.dropWhile (fun a => decide (tok.text.length < a))).headD 0
        = tok.text.length) ∧
    (¬ tok.text.length ∈ cfg.indent →
      token_generator cfg tok = Except.error
        (LexErr.indentation "Incorrect unindent" tok.stop.line tok.stop.column)) := by
  constructor
  · intro hmem
    have hpop := popIndent_eq_of_mem hinv hmem
    have hip : indentPhase cfg tok = Except.ok
        (insert_token "NL" tok.start ::
          List.replicate
            (cfg.indent.length -
              (cfg.indent.dropWhile (fun a => decide (tok.text.length < a))).length)
            (insert_token "DEDENT" tok.stop),
          cfg.indent.dropWhile (fun a => decide (tok.text.length < a)),
          some LState.wsSensitive, { tok with type := "WS" }) := by
      unfold indentPhase
      rw [if_neg (by simp [hst]), if_pos hst, if_neg (by simp [hll]),
        if_pos ⟨hty, hlt⟩, hpop]
    constructor
    · have hred : token_generator cfg tok =
          Except.ok (newlinePhase cfg tok.type
            (insert_token "NL" tok.start ::
              List.replicate
                (cfg.indent.length -
                  (cfg.indent.dropWhile (fun a => decide (tok.text.length < a))).length)
                (insert_token "DEDENT" tok.stop))
            (cfg.indent.dropWhile (fun a => decide (tok.text.length < a)))
            (some LState.wsSensitive) { tok with type := "WS" }) := by
        unfold token_generator
        rw [hip]
      rw [hred]
      unfold newlinePhase
      rw [if_neg (by simp [hty]), if_pos (by simp [hty, excludedTypes])]
      rfl
    · exact dropWhile_headD_of_mem hinv hmem
  · intro hmem
    have hpop := popIndent_none_of_not_mem hinv hlt hmem
    have hip : indentPhase cfg tok = Except.error
        (LexErr.indentation "Incorrect unindent" tok.stop.line tok.stop.column) := by
      unfold indentPhase
      rw [if_neg (by simp [hst]), if_pos hst, if_neg (by simp [hll]),
        if_pos ⟨hty, hlt⟩, hpop]
    unfold token_generator
    rw [hip]

theorem raw_string_dedent_witness :
    token_generator (mkCfg [4, 2, 0] true LState.rawString none)
        (mkTok "RAWLEADWS" "  " (posAt 3 1) (posAt 3 3)) =
      Except.ok
        (insert_token "NL" (posAt 3 1) ::
          (List.replicate 1 (insert_token "DEDENT" (posAt 3 3)) ++
            [mkTok "WS" "  " (posAt 3 1) (posAt 3 3)]),
          mkCfg [2, 0] true LState.rawString (some LState.wsSensitive)) :=
  ((raw_string_dedent (mkCfg [4, 2, 0] true LState.rawString none)
      (mkTok "RAWLEADWS" "  " (posAt 3 1) (posAt 3 3))
      rfl rfl rfl (by decide) (by decide)).1 (by decide)).1

/-- C7: in RAW_STRING with no logical line open and a token other than
NEWLINE: a RAWLEADWS whose character count exceeds the stack top pushes
that count and synthesizes an INDENT positioned at the token end; any
other token with non-blank text raises an IndentationError (incorrect
indentation); a blank token raises nothing and leaves the stack
unchanged. -/
theorem raw_string_indent (cfg : Cfg) (tok : Token)
    (hst : cfg.state = LState.rawString)
    (hll : cfg.logical_line_started = false)
    (hty : ¬ tok.type = "NEWLINE") :
    ((tok.type = "RAWLEADWS" ∧ cfg.indent.headD 0 < tok.text.length) →
      token_generator cfg tok = Except.ok
        ([insert_token "INDENT" tok.stop, tok],
          { indent := tok.text.length :: cfg.indent,
            logical_line_started := true, state := cfg.state,
            next_state := cfg.next_state })) ∧
    (¬ (tok.type = "RAWLEADWS" ∧ cfg.indent.headD 0 < tok.text.length) →
      isBlank tok.text = false →
      token_generator cfg tok = Except.error
        (LexErr.indentation "Incorrect indentation" tok.stop.line tok.stop.column)) ∧
    (¬ (tok.type = "RAWLEADWS" ∧ cfg.indent.headD 0 < tok.text.length) →
      isBlank tok.text = true →
      ∃ cfg2 : Cfg, token_generator cfg tok = Except.ok ([tok], cfg2) ∧
        cfg2.indent = cfg.indent) := by
  refine ⟨?_, ?_, ?_⟩
  · intro hpush
    have hip : indentPhase cfg tok = Except.ok
        ([insert_token "INDENT" tok.stop],
          tok.text.length :: cfg.indent, cfg.next_state, tok) := by
      unfold indentPhase
      rw [if_neg (by simp [hst]), if_pos hst, if_pos ⟨hll, hty⟩, if_pos hpush]
    have hred : token_generator cfg tok =
        Except.ok (newlinePhase cfg tok.type [insert_token "INDENT" tok.stop]
          (tok.text.length :: cfg.indent) cfg.next_state tok) := by
      unfold token_generator
      rw [hip]
    rw [hred]
    unfold newlinePhase
    rw [if_neg (by simp [hll]), if_pos (by simp [hpush.1, excludedTypes])]
    rfl
  · intro hnopush hnb
    have hip : indentPhase cfg tok = Except.error
        (LexErr.indentation "Incorrect indentation" tok.stop.line tok.stop.column) := by
      unfold indentPhase
      rw [if_neg (by simp [hst]), if_pos hst, if_pos ⟨hll, hty⟩,
        if_neg hnopush, if_pos hnb]
    unfold token_generator
    rw [hip]
  · intro hnopush hb
    have hip : indentPhase cfg tok = Except.ok
        ([], cfg.indent, cfg.next_state, tok) := by
      unfold indentPhase
      rw [if_neg (by simp [hst]), if_pos hst, if_pos ⟨hll, hty⟩,
        if_neg hnopush, if_neg (by simp [hb])]
    have hred : token_generator cfg tok =
        Except.ok (newlinePhase cfg tok.type [] cfg.indent cfg.next_state tok) := by
      unfold token_generator
      rw [hip]
    rw [hred]
    unfold newlinePhase
    rw [if_neg (by simp [hll])]
    by_cases hmem : tok.type ∈ excludedTypes
    · rw [if_neg (not_not_intro hmem)]
      exact ⟨_, rfl, rfl⟩
    · rw [if_pos hmem]
      exact ⟨_, rfl, rfl⟩

theorem raw_string_indent_witness :
    token_generator (mkCfg [0] false LState.rawString none)
        (mkTok "RAWLEADWS" "   " (posAt 2 1) (posAt 2 4)) =
      Except.ok
        ([insert_token "INDENT" (posAt 2 4),
          mkTok "RAWLEADWS" "   " (posAt 2 1) (posAt 2 4)],
          mkCfg [3, 0] true LState.rawString none) :=
  (raw_string_indent (mkCfg [0] false LState.rawString none)
      (mkTok "RAWLEADWS" "   " (posAt 2 1) (posAt 2 4))
      rfl rfl (by decide)).1 (by decide)



/-- C8: every rule of every state table consumes at least one character
on any successful match (keyword spellings being non-empty), so the
scan cursor strictly advances on every driver iteration, and the
fuel-based scan loop with fuel length + 1 never runs out: lex always
produces a finite result for every finite input. -/
theorem rules_always_advance (kw : List (String × String))
    (hkw : ∀ vt ∈ kw, vt.1 ≠ "") :
    (∀ st : LState, ∀ r ∈ stateRules kw st, ∀ (s : List Char) (p n : Nat),
      r.re s p = some n → 1 ≤ n) ∧
    (∀ (st : LState) (s : List Char) (p : Nat) (r : Rule) (n : Nat),
      dispatch (stateRules kw st) s p = some (r, n) → 1 ≤ n) ∧
    (∀ src : String, lex kw src ≠ Except.error LexErr.fuelExhausted) := by
  refine ⟨stateRules_re_ge1 hkw, ?_, ?_⟩
  · intro st s p r n hd
    have hm := dispatch_mem hd
    exact stateRules_re_ge1 hkw st r hm.1 s p n hm.2
  · intro src
    exact lexLoop_no_fuelExhausted hkw src.data (src.data.length + 1) 0
      (posAt 1 1) initCfg (by omega)

theorem rules_always_advance_witness :
    lex kwAbstractLink "x" ≠ Except.error LexErr.fuelExhausted :=
  (rules_always_advance kwAbstractLink (by decide)).2.2 "x"

/-- C9 counterexample: lexing "abstract link foo:\n    bar := 1\n" does
not contain, in this relative order, a TURNSTILE followed by an INDENT
followed by a RAWSTRING with text "1" followed by an NL and a DEDENT:
the only INDENT precedes the TURNSTILE and the RAWSTRING text is " 1". -/
theorem c9_scenario_cex :
    hasSubseq
      [("TURNSTILE", none), ("INDENT", none), ("RAWSTRING", some "1"),
       ("NL", none), ("DEDENT", none)]
      (kindsTexts (lex kwAbstractLink c9input)) = false := by
  rfl

/-- C9 (amended): lexing "abstract link foo:\n    bar := 1\n" yields
exactly the kinds and texts below: the INDENT arises from the
code-layout indent of the second line and precedes the TURNSTILE, the
RAWSTRING text is " 1", the NL comes from the final newline, and the
DEDENT at end of input restores the stack to the base level; in
particular the relative order INDENT, TURNSTILE, RAWSTRING " 1", NL,
DEDENT holds. -/
theorem c9_scenario_amended :
    kindsTexts (lex kwAbstractLink c9input) =
      [("ABSTRACT", "abstract"), ("WS", " "), ("LINK", "link"), ("WS", " "),
       ("IDENT", "foo"), ("COLON", ":"), ("NL", ""), ("NEWLINE", "\n"),
       ("WS", "    "), ("INDENT", ""), ("IDENT", "bar"), ("WS", " "),
       ("TURNSTILE", ":="), ("RAWSTRING", " 1"), ("NL", ""), ("NEWLINE", "\n"),
       ("DEDENT", "")] ∧
    hasSubseq
      [("INDENT", none), ("TURNSTILE", none), ("RAWSTRING", some " 1"),
       ("NL", none), ("DEDENT", none)]
      (kindsTexts (lex kwAbstractLink c9input)) = true := by
  constructor
  · rfl
  · rfl


end EdgeSchema
